import Mathlib

/-
Verification development for the natural-language calculator agent.

The embedding translates, from the Python sources:
  * parsers/natural_language_parser.py  — the pattern table and `parse`
    (regular expressions are embedded as an explicit backtracking matcher
    `mrun`/`search` with Python `re.search` semantics: leftmost starting
    position, left-preferring alternation, greedy quantifiers);
  * calculators/scientific_calculator.py — `calculate` and the per-operation
    routines; numbers are modelled as rationals (every value the claims
    touch is exactly representable); the irrational float library routines
    (sqrt, trig, logs, fractional powers) are abstracted as a `FloatOps`
    record of uninterpreted functions, the validation/dispatch logic around
    them is translated faithfully;
  * src/memory_manager.py — the bounded history store (the wall-clock
    `timestamp` field is not modelled; no claim depends on it; the stored
    `result` string `str(result)` is modelled by the numeric value itself);
  * src/input_processor.py and src/formatters.py — input cleaning and the
    response strings the claims mention;
  * src/agent.py — `process_query`.
-/

namespace CalcAgent

/-! ## A small regular-expression engine

Embeds the subset of Python regex syntax used by the parser's patterns:
literals, single-character classes, non-capturing alternation `(?:a|b)`,
optional `?`, greedy `\s*` / `\d+` style quantifiers over character
classes, and capturing groups over numeric bodies.  `mrun` enumerates all
matches at a fixed start position in backtracking priority order (greedy
quantifiers longest-first, alternation left-first), exactly the order in
which Python's engine finds them; `search` tries start positions from the
left, as `re.search` does. -/

inductive RE where
  | eps : RE
  | pred : (Char → Bool) → RE
  | str : List Char → RE
  | seq : RE → RE → RE
  | alt : RE → RE → RE
  | star : (Char → Bool) → RE
  | plus : (Char → Bool) → RE
  | opt : RE → RE
  | group : RE → RE

/-- Run a regex at the current position.  Returns every way the regex can
match a prefix of `s`, as (remaining suffix, captured groups in order),
listed in Python's backtracking priority order. -/
def mrun : RE → List Char → List (List Char × List (List Char))
  | .eps, s => [(s, [])]
  | .pred _, [] => []
  | .pred p, c :: cs => if p c then [(cs, [])] else []
  | .str l, s => if l.isPrefixOf s then [(s.drop l.length, [])] else []
  | .seq a b, s =>
      (mrun a s).flatMap (fun x => (mrun b x.1).map (fun y => (y.1, x.2 ++ y.2)))
  | .alt a b, s => mrun a s ++ mrun b s
  | .star p, s =>
      let n := (s.takeWhile p).length
      (List.range (n + 1)).map (fun i => (s.drop (n - i), []))
  | .plus p, s =>
      let n := (s.takeWhile p).length
      (List.range n).map (fun i => (s.drop (n - i), []))
  | .opt a, s => mrun a s ++ [(s, [])]
  | .group a, s => (mrun a s).map (fun x => (x.1, [s.take (s.length - x.1.length)]))

/-- Leftmost search: try each start position from the left, return the
captures of the highest-priority match at the first position that has one
(the semantics of Python `re.search`). -/
def searchAux (r : RE) : List Char → Option (List (List Char))
  | [] =>
      match mrun r [] with
      | x :: _ => some x.2
      | [] => none
  | c :: cs =>
      match mrun r (c :: cs) with
      | x :: _ => some x.2
      | [] => searchAux r cs

def search (r : RE) (s : List Char) : Option (List (List Char)) :=
  searchAux r s

/-! ## Numeric captures

`float(g)` applied to a captured substring.  Captures come from the
number bodies `\d+\.?\d*` / `\d+`, i.e. digits with an optional decimal
fraction and no sign, so the value is `intpart + fracpart / 10^k`. -/

def digitsToNat (s : List Char) : Nat :=
  s.foldl (fun n c => 10 * n + (c.toNat - 48)) 0

def floatOfChars (s : List Char) : Rat :=
  let ip := s.takeWhile (fun c => !(c == '.'))
  let fp := (s.dropWhile (fun c => !(c == '.'))).drop 1
  (digitsToNat ip : Rat) + (digitsToNat fp : Rat) / ((10 : Rat) ^ fp.length)

/-! ## The pattern table of the natural-language parser -/

def chr (c : Char) : RE := .pred (fun x => x == c)

def lit (s : String) : RE := .str s.data

/-- Pattern piece `\s*`. -/
def ws : RE := .star Char.isWhitespace

/-- Capturing number `(\d+\.?\d*)`. -/
def num : RE :=
  .group (.seq (.plus Char.isDigit) (.seq (.opt (chr '.')) (.star Char.isDigit)))

/-- Capturing integer `(\d+)` (used by the factorial patterns). -/
def intg : RE := .group (.plus Char.isDigit)

def reseq (l : List RE) : RE := l.foldr .seq .eps

def alts : List RE → RE
  | [] => .eps
  | [r] => r
  | r :: rs => .alt r (alts rs)

/-- The apostrophe character (39). -/
def apos : Char := Char.ofNat 39

/-- Pattern piece for the alternative `what\'?s?`. -/
def reWhat : RE := .seq (lit "what") (.seq (.opt (chr apos)) (.opt (chr 's')))

def addPat1 : RE :=
  reseq [.opt (alts [reWhat, lit "calculate", lit "compute"]), ws, num, ws,
         alts [chr '+', lit "plus", lit "add"], ws, num]

def addPat2 : RE :=
  reseq [alts [lit "add", lit "sum"], ws, num, ws, alts [lit "and", lit "to"], ws, num]

def subPat1 : RE :=
  reseq [.opt (alts [reWhat, lit "calculate"]), ws, num, ws,
         alts [chr '-', lit "minus", lit "subtract"], ws, num]

def subPat2 : RE :=
  reseq [lit "subtract", ws, num, ws, lit "from", ws, num]

def mulPat1 : RE :=
  reseq [.opt (alts [reWhat, lit "calculate"]), ws, num, ws,
         alts [chr '*', chr '×', lit "times", lit "multiply"], ws, num]

def mulPat2 : RE :=
  reseq [lit "multiply", ws, num, ws, alts [lit "by", lit "and"], ws, num]

def divPat1 : RE :=
  reseq [.opt (alts [reWhat, lit "calculate"]), ws, num, ws,
         alts [chr '/', chr '÷', lit "divided by", lit "divide"], ws, num]

def divPat2 : RE :=
  reseq [lit "divide", ws, num, ws, lit "by", ws, num]

def powPat1 : RE :=
  reseq [num, ws, alts [lit "to the power of", lit "raised to", lit "power"], ws, num]

def powPat2 : RE :=
  reseq [num, ws, lit "**", ws, num]

def sqPat1 : RE := reseq [num, ws, lit "squared"]

def sqPat2 : RE := reseq [lit "square", ws, .opt (lit "of"), ws, num]

def cuPat1 : RE := reseq [num, ws, lit "cubed"]

def cuPat2 : RE := reseq [lit "cube", ws, .opt (lit "of"), ws, num]

def sqrtPat1 : RE :=
  reseq [alts [lit "square root", lit "sqrt"], ws, .opt (lit "of"), ws, num]

def sqrtPat2 : RE := reseq [chr '√', ws, num]

def cbrtPat1 : RE :=
  reseq [alts [lit "cube root", lit "cbrt"], ws, .opt (lit "of"), ws, num]

def sinPat1 : RE :=
  reseq [alts [lit "sin", lit "sine"], ws, .opt (lit "of"), ws, num, ws,
         .opt (.seq (lit "degree") (.opt (chr 's')))]

def cosPat1 : RE :=
  reseq [alts [lit "cos", lit "cosine"], ws, .opt (lit "of"), ws, num, ws,
         .opt (.seq (lit "degree") (.opt (chr 's')))]

def tanPat1 : RE :=
  reseq [alts [lit "tan", lit "tangent"], ws, .opt (lit "of"), ws, num, ws,
         .opt (.seq (lit "degree") (.opt (chr 's')))]

def logPat1 : RE :=
  reseq [alts [lit "log", lit "logarithm"], ws, .opt (lit "of"), ws, num]

def lnPat1 : RE :=
  reseq [alts [lit "ln", lit "natural log"], ws, .opt (lit "of"), ws, num]

def factPat1 : RE := reseq [intg, ws, lit "factorial"]

def factPat2 : RE := reseq [lit "factorial", ws, .opt (lit "of"), ws, intg]

/-- The ordered operation table of `NaturalLanguageParser.__init__`
(Python dict preserves insertion order). -/
def patternList : List (String × List RE) :=
  [("add", [addPat1, addPat2]),
   ("subtract", [subPat1, subPat2]),
   ("multiply", [mulPat1, mulPat2]),
   ("divide", [divPat1, divPat2]),
   ("power", [powPat1, powPat2]),
   ("square", [sqPat1, sqPat2]),
   ("cube", [cuPat1, cuPat2]),
   ("sqrt", [sqrtPat1, sqrtPat2]),
   ("cbrt", [cbrtPat1]),
   ("sin", [sinPat1]),
   ("cos", [cosPat1]),
   ("tan", [tanPat1]),
   ("log", [logPat1]),
   ("ln", [lnPat1]),
   ("factorial", [factPat1, factPat2])]

/-! ## Parsing -/

structure Parsed where
  operation : String
  operands : List Rat
  original_text : List Char
deriving DecidableEq

/-- Translation of `NaturalLanguageParser._handle_special_cases`. -/
def handleSpecialCases (operation : String) (operands : List Rat) : List Rat :=
  match operation, operands with
  | "square", [x] => [x, 2]
  | "cube", [x] => [x, 3]
  | _, _ => operands

/-- First pattern in the list that matches, as in the source's
`for pattern in patterns` loop. -/
def firstSome? (f : α → Option β) : List α → Option β
  | [] => none
  | a :: rest =>
      match f a with
      | some b => some b
      | none => firstSome? f rest

/-- One operation of the `for operation, patterns in self.patterns.items()`
loop body: the first matching pattern yields the parsed request;
`[float(g) for g in match.groups() if g]` then the special cases. -/
def tryOperation (operation : String) (ps : List RE) (tlow orig : List Char) :
    Option Parsed :=
  (firstSome? (fun p => search p tlow) ps).map (fun caps =>
    let operands := (caps.filter (fun g => !g.isEmpty)).map floatOfChars
    ⟨operation, handleSpecialCases operation operands, orig⟩)

/-- Translation of `NaturalLanguageParser.parse`. -/
def nlParse (input : List Char) : Option Parsed :=
  let tlow := input.map Char.toLower
  firstSome? (fun e => tryOperation e.1 e.2 tlow input) patternList

/-! ## The scientific calculator

Numbers are rationals.  The exceptions the source raises are explicit:
`ValueError` / `ZeroDivisionError`.  Real-valued float routines (sympy /
math library calls) are abstracted as the record `FloatOps`; the
degree-to-radian conversion of the trig routines is folded into the
abstract function.  The `f"Operation '...' is not supported"` message is
modelled without the interpolated name. -/

inductive CalcError where
  | valueError : String → CalcError
  | zeroDivisionError : String → CalcError
deriving DecidableEq

structure FloatOps where
  fsqrt : Rat → Rat
  fcbrt : Rat → Rat
  fsin : Rat → Rat
  fcos : Rat → Rat
  ftan : Rat → Rat
  flog10 : Rat → Rat
  fln : Rat → Rat
  fpow : Rat → Rat → Rat

def supported_operations : List String :=
  ["add", "subtract", "multiply", "divide",
   "power", "square", "cube",
   "sqrt", "cbrt",
   "sin", "cos", "tan",
   "log", "ln",
   "factorial"]

def supports_operation (operation : String) : Bool :=
  supported_operations.contains operation

def scAdd (operands : List Rat) : Except CalcError Rat :=
  if operands.length < 2 then
    .error (.valueError "Addition requires at least 2 operands")
  else .ok operands.sum

def scSubtract : List Rat → Except CalcError Rat
  | [a, b] => .ok (a - b)
  | _ => .error (.valueError "Subtraction requires exactly 2 operands")

def scMultiply (operands : List Rat) : Except CalcError Rat :=
  if operands.length < 2 then
    .error (.valueError "Multiplication requires at least 2 operands")
  else .ok (operands.foldl (fun r x => r * x) 1)

def scDivide : List Rat → Except CalcError Rat
  | [a, b] =>
      if b = 0 then .error (.zeroDivisionError "Cannot divide by zero")
      else .ok (a / b)
  | _ => .error (.valueError "Division requires exactly 2 operands")

/-- Python `a ** b` on floats: exact for integer exponents, otherwise a
real-valued library routine (abstracted).  (Python raises on `0 ** b`
for negative `b`; that case is outside the claims and the model gives 0.) -/
def pyPow (F : FloatOps) (a b : Rat) : Rat :=
  if b.den = 1 then a ^ b.num else F.fpow a b

def scPower (F : FloatOps) : List Rat → Except CalcError Rat
  | [a, b] => .ok (pyPow F a b)
  | _ => .error (.valueError "Power operation requires exactly 2 operands")

def scSqrt (F : FloatOps) : List Rat → Except CalcError Rat
  | [x] =>
      if x < 0 then
        .error (.valueError "Cannot calculate square root of negative number")
      else .ok (F.fsqrt x)
  | _ => .error (.valueError "Square root requires exactly 1 operand")

def scCbrt (F : FloatOps) : List Rat → Except CalcError Rat
  | [x] => .ok (F.fcbrt x)
  | _ => .error (.valueError "Cube root requires exactly 1 operand")

def scSin (F : FloatOps) : List Rat → Except CalcError Rat
  | [x] => .ok (F.fsin x)
  | _ => .error (.valueError "Sine requires exactly 1 operand")

def scCos (F : FloatOps) : List Rat → Except CalcError Rat
  | [x] => .ok (F.fcos x)
  | _ => .error (.valueError "Cosine requires exactly 1 operand")

def scTan (F : FloatOps) : List Rat → Except CalcError Rat
  | [x] => .ok (F.ftan x)
  | _ => .error (.valueError "Tangent requires exactly 1 operand")

def scLog (F : FloatOps) : List Rat → Except CalcError Rat
  | [x] =>
      if x ≤ 0 then
        .error (.valueError "Cannot calculate logarithm of non-positive number")
      else .ok (F.flog10 x)
  | _ => .error (.valueError "Logarithm requires exactly 1 operand")

def scLn (F : FloatOps) : List Rat → Except CalcError Rat
  | [x] =>
      if x ≤ 0 then
        .error (.valueError "Cannot calculate natural logarithm of non-positive number")
      else .ok (F.fln x)
  | _ => .error (.valueError "Natural logarithm requires exactly 1 operand")

/-- Translation of `ScientificCalculator._factorial`: arity, negativity and
integrality checks (Python `operands[0] != int(operands[0])`), then the
exact integer factorial. -/
def scFactorial : List Rat → Except CalcError Rat
  | [x] =>
      if x < 0 then
        .error (.valueError "Cannot calculate factorial of negative number")
      else if x.den ≠ 1 then
        .error (.valueError "Factorial requires an integer")
      else .ok (Nat.factorial x.num.toNat : Rat)
  | _ => .error (.valueError "Factorial requires exactly 1 operand")

/-- Translation of `ScientificCalculator.calculate`: the guard for a missing
or unsupported operation, then the routing chain. -/
def calculate (F : FloatOps) (operation : String) (operands : List Rat) :
    Except CalcError Rat :=
  if operation = "" then .error (.valueError "No operation specified")
  else if ¬ supports_operation operation then
    .error (.valueError "Operation is not supported")
  else if operation = "add" then scAdd operands
  else if operation = "subtract" then scSubtract operands
  else if operation = "multiply" then scMultiply operands
  else if operation = "divide" then scDivide operands
  else if operation = "power" ∨ operation = "square" ∨ operation = "cube" then
    scPower F operands
  else if operation = "sqrt" then scSqrt F operands
  else if operation = "cbrt" then scCbrt F operands
  else if operation = "sin" then scSin F operands
  else if operation = "cos" then scCos F operands
  else if operation = "tan" then scTan F operands
  else if operation = "log" then scLog F operands
  else if operation = "ln" then scLn F operands
  else if operation = "factorial" then scFactorial operands
  else .error (.valueError "Operation not implemented")

/-! ## The memory manager (history store) -/

structure HistoryEntry where
  query : List Char
  result : Rat
  operation_type : String
deriving DecidableEq

structure MemoryManager where
  history : List HistoryEntry
  max_history : Nat
deriving DecidableEq

/-- Translation of `MemoryManager.add`: append the entry, then
`if len > max_history: pop(0)`. -/
def MemoryManager.add (m : MemoryManager) (query : List Char) (result : Rat)
    (operation_type : String) : MemoryManager :=
  let h := m.history ++ [⟨query, result, operation_type⟩]
  if m.max_history < h.length then ⟨h.drop 1, m.max_history⟩
  else ⟨h, m.max_history⟩

/-- Translation of `MemoryManager.get_history`.  With a limit the source
returns `list(reversed(self._history[-limit:]))`; note that for
`limit = 0` the Python slice `[-0:]` is `[0:]`, the whole list. -/
def MemoryManager.get_history (m : MemoryManager) (limit : Option Nat) :
    List HistoryEntry :=
  match limit with
  | none => m.history.reverse
  | some l =>
      (if l = 0 then m.history else m.history.drop (m.history.length - l)).reverse

def MemoryManager.clear (m : MemoryManager) : MemoryManager :=
  ⟨[], m.max_history⟩

def MemoryManager.count (m : MemoryManager) : Nat :=
  m.history.length

def MemoryManager.empty (maxHistory : Nat) : MemoryManager :=
  ⟨[], maxHistory⟩

/-! ## Input processor -/

/-- Python `str.strip()`. -/
def strip (t : List Char) : List Char :=
  ((t.dropWhile Char.isWhitespace).reverse.dropWhile Char.isWhitespace).reverse

/-- Python `re.sub(r'\s+', ' ', text)`, one pass with a flag recording
whether the previous character was whitespace: each maximal whitespace
run is replaced by a single space. -/
def collapseWsAux (prevWs : Bool) : List Char → List Char
  | [] => []
  | c :: cs =>
      if c.isWhitespace then
        if prevWs then collapseWsAux true cs
        else ' ' :: collapseWsAux true cs
      else c :: collapseWsAux false cs

def collapseWs (t : List Char) : List Char := collapseWsAux false t

/-- Translation of `InputProcessor.process`: clean (strip, collapse
whitespace), reject an empty input or an empty cleaned string. -/
def inputProcess (raw : List Char) : Option (List Char) :=
  if raw.isEmpty then none
  else
    let cleaned := collapseWs (strip raw)
    if cleaned.isEmpty then none else some cleaned

/-! ## Output formatter

Only the pieces the orchestrator consumes.  `_format_number` renders a
whole-valued float without decimals, otherwise `str(round(number, 6))`
with trailing zeros / decimal point stripped (Python `round` is
banker's rounding and `str` of a float prints the shortest repr; the
model rounds half-up and prints the 6 rounded digits — no claim inspects
a non-integral rendering). -/

def natChars (n : Nat) : List Char := Nat.toDigits 10 n

def intChars (z : Int) : List Char :=
  if z < 0 then '-' :: natChars z.natAbs else natChars z.natAbs

def stripTrailing (c : Char) (s : List Char) : List Char :=
  (s.reverse.dropWhile (fun x => x == c)).reverse

def formatNumber (r : Rat) : List Char :=
  if r.den = 1 then intChars r.num
  else
    let scaled : Int := round (r * 1000000)
    let sgn : List Char := if scaled < 0 then ['-'] else []
    let a := scaled.natAbs
    let fdigits := natChars (a % 1000000)
    let frac := List.replicate (6 - fdigits.length) '0' ++ fdigits
    stripTrailing '.' (stripTrailing '0' (sgn ++ natChars (a / 1000000) ++ '.' :: frac))

def formatResult (result : Rat) (_query : List Char) : List Char :=
  "The answer is ".data ++ formatNumber result

def formatError (msg : String) : List Char :=
  ("Error: " ++ msg).data

def formatParsingError : List Char :=
  ("\nI couldn't understand that question. Please try again.\n\n"
   ++ "Examples of questions I can answer:\n"
   ++ "  • \"What's 2 + 2?\"\n"
   ++ "  • \"Calculate square root of 144\"\n"
   ++ "  • \"What's 5 squared?\"\n\n"
   ++ "Type 'help' for more examples.\n").data

def formatHelp : List Char :=
  ("\nAvailable Operations:\n─────────────────────\n\n"
   ++ "Basic Arithmetic:\n"
   ++ "  • Addition: \"What's 5 + 3?\", \"Add 10 and 20\"\n"
   ++ "  • Subtraction: \"10 minus 3\", \"What's 15 - 7?\"\n"
   ++ "  • Multiplication: \"5 times 4\", \"Multiply 6 and 7\"\n"
   ++ "  • Division: \"Divide 20 by 5\", \"What's 100 / 4?\"\n\n"
   ++ "Powers and Roots:\n"
   ++ "  • Power: \"2 to the power of 3\", \"5 squared\", \"4 cubed\"\n"
   ++ "  • Square root: \"Square root of 81\", \"sqrt(144)\"\n"
   ++ "  • Nth root: \"Cube root of 27\"\n\n"
   ++ "Trigonometry:\n"
   ++ "  • \"sin of 30 degrees\", \"cos(45)\", \"tan of 60\"\n"
   ++ "  • Note: Input angles in degrees\n\n"
   ++ "Logarithms:\n"
   ++ "  • \"log of 100\", \"natural log of 10\", \"ln(5)\"\n\n"
   ++ "Factorials:\n"
   ++ "  • \"5 factorial\", \"factorial of 7\"\n\n"
   ++ "Special Commands:\n"
   ++ "  • 'history' - Show calculation history\n"
   ++ "  • 'clear' - Clear calculation history\n"
   ++ "  • 'help' - Show this help message\n"
   ++ "  • 'quit' - Exit the program\n").data

def formatHistoryLines (entries : List HistoryEntry) (i : Nat) : List Char :=
  match entries with
  | [] => []
  | e :: rest =>
      natChars i ++ ". ".data ++ e.query ++ " = ".data ++ formatNumber e.result
        ++ ['\n'] ++ formatHistoryLines rest (i + 1)

/-- Translation of `OutputFormatter.format_history` (the stored result
string is modelled by its numeric value, rendered here). -/
def formatHistory (history : List HistoryEntry) : List Char :=
  if history.isEmpty then "No calculation history yet.".data
  else
    "\nCalculation History:\n".data ++ List.replicate 60 '─' ++ ['\n']
      ++ formatHistoryLines history 1

/-! ## The agent orchestrator

Translation of `CalculatorAgent.process_query`.  Returns the response and
the (possibly updated) history store.  The source's try/except structure
is translated branch by branch: a failed parse yields the parsing-error
response, `ZeroDivisionError` and `ValueError` from the calculator are
caught and rendered (the catch-all `except Exception` arms are
unreachable: the translated components return only these errors). -/

def process_query (F : FloatOps) (mem : MemoryManager) (user_input : List Char) :
    List Char × MemoryManager :=
  match inputProcess user_input with
  | none => (formatError "Invalid input", mem)
  | some processed =>
      if processed.map Char.toLower = "help".data then (formatHelp, mem)
      else if processed.map Char.toLower = "history".data then
        (formatHistory (mem.get_history (some 10)), mem)
      else if processed.map Char.toLower = "clear".data then
        ("History cleared!".data, mem.clear)
      else
        match nlParse processed with
        | none => (formatParsingError, mem)
        | some parsed =>
            match calculate F parsed.operation parsed.operands with
            | .error (.zeroDivisionError _) =>
                (formatError "Cannot divide by zero", mem)
            | .error (.valueError e) => (formatError e, mem)
            | .ok result =>
                (formatResult result user_input,
                 mem.add user_input result parsed.operation)

/-! ## Operation sequences on the history store (for the capacity
invariant, which is about every sequence of add and clear operations) -/

inductive MemOp where
  | add : List Char → Rat → String → MemOp
  | clear : MemOp

def runOps (m : MemoryManager) : List MemOp → MemoryManager
  | [] => m
  | .add q r o :: rest => runOps (m.add q r o) rest
  | .clear :: rest => runOps m.clear rest

def addEntries (m : MemoryManager) (es : List HistoryEntry) : MemoryManager :=
  es.foldl (fun acc e => acc.add e.query e.result e.operation_type) m

/-- A concrete (all-zero) instantiation of the abstract float routines,
used to evaluate the model at concrete inputs. -/
def zeroFloatOps : FloatOps :=
  ⟨fun _ => 0, fun _ => 0, fun _ => 0, fun _ => 0,
   fun _ => 0, fun _ => 0, fun _ => 0, fun _ _ => 0⟩

end CalcAgent

attribute [local semireducible] Rat.add Rat.mul Rat.sub Rat.inv Rat.ofScientific

namespace CalcAgent

/-- Specification predicate: every match of the regex yields exactly `n`
captured groups, each satisfying `P`. -/
def CapsAre (P : List Char → Prop) (n : Nat) (r : RE) : Prop :=
  ∀ (s : List Char) (x : List Char × List (List Char)),
    x ∈ mrun r s → x.2.length = n ∧ ∀ c ∈ x.2, P c

/-- A captured group that is a non-empty string of decimal digits. -/
def DigitCap (c : List Char) : Prop :=
  c ≠ [] ∧ ∀ ch ∈ c, Char.isDigit ch = true

/-! ### Helper lemmas about the history store -/

theorem add_max_history (m : MemoryManager) (q : List Char) (v : Rat) (o : String) :
    (m.add q v o).max_history = m.max_history := by
  simp only [MemoryManager.add]
  split <;> rfl

theorem add_history_eq (m : MemoryManager) (q : List Char) (v : Rat) (o : String) :
    (m.add q v o).history =
      if m.max_history < m.history.length + 1 then
        (m.history ++ [HistoryEntry.mk q v o]).drop 1
      else m.history ++ [HistoryEntry.mk q v o] := by
  simp only [MemoryManager.add, List.length_append, List.length_cons, List.length_nil]
  split <;> rfl

theorem add_length_le (m : MemoryManager) (h : m.history.length ≤ m.max_history)
    (q : List Char) (v : Rat) (o : String) :
    (m.add q v o).history.length ≤ m.max_history := by
  rw [add_history_eq]
  split <;> rename_i hc <;>
    simp only [List.length_drop, List.length_append, List.length_cons,
      List.length_nil] <;> omega

theorem runOps_length_le (M : Nat) (ops : List MemOp) :
    ∀ m : MemoryManager, m.max_history = M → m.history.length ≤ M →
      (runOps m ops).history.length ≤ M := by
  induction ops with
  | nil => intro m hM hl; simpa [runOps] using hM ▸ hl
  | cons op rest ih =>
      intro m hM hl
      cases op with
      | add q v o =>
          refine ih (m.add q v o) (by rw [add_max_history, hM]) ?_
          have h1 : m.history.length ≤ m.max_history := by omega
          have h2 := add_length_le m h1 q v o
          omega
      | clear => exact ih m.clear hM (by simp [MemoryManager.clear])

theorem entry_eta (e : HistoryEntry) :
    HistoryEntry.mk e.query e.result e.operation_type = e := rfl

theorem addEntries_history (M : Nat) (es : List HistoryEntry) :
    ∀ m : MemoryManager, m.max_history = M → m.history.length ≤ M →
      (addEntries m es).history
        = (m.history ++ es).drop (m.history.length + es.length - M) := by
  induction es with
  | nil =>
      intro m hM hl
      simp [addEntries, Nat.sub_eq_zero_of_le hl]
  | cons e rest ih =>
      intro m hM hl
      have hstep : addEntries m (e :: rest)
          = addEntries (m.add e.query e.result e.operation_type) rest := rfl
      rw [hstep]
      have hM' : (m.add e.query e.result e.operation_type).max_history = M := by
        rw [add_max_history, hM]
      by_cases hc : m.history.length < M
      · have hhist : (m.add e.query e.result e.operation_type).history
            = m.history ++ [e] := by
          rw [add_history_eq, if_neg (by omega), entry_eta]
        have hl' : (m.add e.query e.result e.operation_type).history.length ≤ M := by
          rw [hhist]; simp only [List.length_append, List.length_cons, List.length_nil]
          omega
        rw [ih _ hM' hl', hhist, List.append_cons m.history e rest]
        simp only [List.length_append, List.length_cons, List.length_nil]
        congr 1
        omega
      · have hlen : m.history.length = M := le_antisymm hl (not_lt.mp hc)
        have hhist : (m.add e.query e.result e.operation_type).history
            = (m.history ++ [e]).drop 1 := by
          rw [add_history_eq, if_pos (by omega), entry_eta]
        have hl' : (m.add e.query e.result e.operation_type).history.length ≤ M := by
          rw [hhist]
          simp only [List.length_drop, List.length_append, List.length_cons,
            List.length_nil]
          omega
        rw [ih _ hM' hl', hhist]
        rw [List.append_cons m.history e rest]
        rw [← List.drop_append_of_le_length
            (show 1 ≤ (m.history ++ [e]).length by simp)]
        rw [List.drop_drop]
        simp only [List.length_drop, List.length_append, List.length_cons,
          List.length_nil]
        congr 1
        omega

/-- Claim C1: for every capacity and every sequence of add/clear
operations from the empty store, the length never exceeds the capacity;
an insert below capacity appends (order preserved, no eviction) and an
insert at capacity drops exactly the single oldest entry; and inserting
`max_history + k` entries leaves exactly the last `max_history` of them. -/
theorem history_capacity_invariant :
    ∀ M : Nat,
      (∀ ops : List MemOp, (runOps (MemoryManager.empty M) ops).history.length ≤ M)
      ∧ (∀ (m : MemoryManager) (q : List Char) (v : Rat) (o : String),
          m.max_history = M →
          (m.history.length < M →
              (m.add q v o).history = m.history ++ [HistoryEntry.mk q v o])
          ∧ (m.history.length = M →
              (m.add q v o).history = (m.history ++ [HistoryEntry.mk q v o]).drop 1))
      ∧ (∀ es : List HistoryEntry,
          (addEntries (MemoryManager.empty M) es).history = es.drop (es.length - M)
          ∧ (M ≤ es.length →
              (addEntries (MemoryManager.empty M) es).history.length = M)) := by
  intro M
  refine ⟨fun ops => runOps_length_le M ops _ rfl (by simp [MemoryManager.empty]),
    fun m q v o hM => ⟨fun hlt => ?_, fun heq => ?_⟩, fun es => ⟨?_, fun hge => ?_⟩⟩
  · rw [add_history_eq, if_neg (by omega)]
  · rw [add_history_eq, if_pos (by omega)]
  · simpa [MemoryManager.empty] using
      addEntries_history M es (MemoryManager.empty M) rfl (by simp [MemoryManager.empty])
  · have h := addEntries_history M es (MemoryManager.empty M) rfl
      (by simp [MemoryManager.empty])
    simp only [MemoryManager.empty, List.nil_append, List.length_nil, Nat.zero_add] at h
    simp only [MemoryManager.empty]
    rw [h, List.length_drop]
    omega

theorem history_capacity_invariant_witness :
    ((MemoryManager.mk [⟨"a".data, 1, "add"⟩, ⟨"b".data, 2, "add"⟩] 2).history.length = 2
      ∧ ((MemoryManager.mk [⟨"a".data, 1, "add"⟩, ⟨"b".data, 2, "add"⟩] 2).add
            "c".data 3 "add").history
          = ([⟨"a".data, 1, "add"⟩, ⟨"b".data, 2, "add"⟩, ⟨"c".data, 3, "add"⟩] : List HistoryEntry).drop 1)
    ∧ ((2 : Nat) ≤ ([⟨"a".data, 1, "add"⟩, ⟨"b".data, 2, "add"⟩, ⟨"c".data, 3, "add"⟩] : List HistoryEntry).length
      ∧ (addEntries (MemoryManager.empty 2)
          [⟨"a".data, 1, "add"⟩, ⟨"b".data, 2, "add"⟩, ⟨"c".data, 3, "add"⟩]).history.length = 2) :=
  ⟨⟨rfl, ((history_capacity_invariant 2).2.1
      (MemoryManager.mk [⟨"a".data, 1, "add"⟩, ⟨"b".data, 2, "add"⟩] 2)
      "c".data 3 "add" rfl).2 rfl⟩,
   ⟨by decide, ((history_capacity_invariant 2).2.2
      [⟨"a".data, 1, "add"⟩, ⟨"b".data, 2, "add"⟩, ⟨"c".data, 3, "add"⟩]).2 (by decide)⟩⟩

/-- Claim C2: parsing "What's 25 + 17?" yields operation `add` with
operands `[25.0, 17.0]`; evaluating that parsed request yields `42.0`;
and recording it then calling `recent(1)` returns exactly that single
entry (stated for the agent's store of capacity 100, for every recorded
entry content). -/
theorem roundtrip_add_25_17 :
    nlParse "What's 25 + 17?".data
      = some ⟨"add", [25, 17], "What's 25 + 17?".data⟩
    ∧ (∀ F : FloatOps, calculate F "add" [25, 17] = .ok 42)
    ∧ (∀ (q : List Char) (v : Rat) (o : String),
        ((MemoryManager.mk [] 100).add q v o).get_history (some 1) = [⟨q, v, o⟩]) :=
  ⟨by decide, fun F => rfl, fun q v o => rfl⟩

/-- Claim C3: `divide` with second operand 0 fails with the
`ZeroDivisionError` (for every first operand), with a non-zero second
operand returns the quotient, and with an operand count other than 2
fails with the arity `ValueError`. -/
theorem divide_spec :
    (∀ a : Rat, scDivide [a, 0] = .error (.zeroDivisionError "Cannot divide by zero"))
    ∧ (∀ a b : Rat, b ≠ 0 → scDivide [a, b] = .ok (a / b))
    ∧ (∀ ops : List Rat, ops.length ≠ 2 →
        scDivide ops = .error (.valueError "Division requires exactly 2 operands")) := by
  refine ⟨fun a => rfl, fun a b h => by simp [scDivide, h], fun ops h => ?_⟩
  match ops with
  | [] => rfl
  | [a] => rfl
  | [a, b] => exact absurd rfl h
  | a :: b :: c :: rest => rfl

theorem divide_spec_witness :
    ((2 : Rat) ≠ 0 ∧ scDivide [1, 2] = .ok (1 / 2))
    ∧ (([] : List Rat).length ≠ 2
        ∧ scDivide ([] : List Rat) = .error (.valueError "Division requires exactly 2 operands")) :=
  ⟨⟨by decide, divide_spec.2.1 1 2 (by decide)⟩,
   ⟨by decide, divide_spec.2.2 [] (by decide)⟩⟩

/-- Claim C4: `factorial` of a non-negative integer n returns the exact
integer factorial (in particular `factorial 0 = 1`); a negative or
non-integral operand fails with the corresponding domain `ValueError`. -/
theorem factorial_spec :
    (∀ n : Nat, scFactorial [(n : Rat)] = .ok (Nat.factorial n : Rat))
    ∧ (∀ q : Rat, q < 0 →
        scFactorial [q] = .error (.valueError "Cannot calculate factorial of negative number"))
    ∧ (∀ q : Rat, 0 ≤ q → q.den ≠ 1 →
        scFactorial [q] = .error (.valueError "Factorial requires an integer")) := by
  refine ⟨fun n => ?_, fun q h => by simp [scFactorial, h], fun q h h1 => ?_⟩
  · simp [scFactorial, not_lt.mpr (Nat.cast_nonneg (α := Rat) n), Rat.den_natCast,
      Rat.num_natCast]
  · simp [scFactorial, not_lt.mpr h, h1]

theorem factorial_spec_witness :
    (scFactorial [((3 : Nat) : Rat)] = .ok (Nat.factorial 3 : Rat))
    ∧ ((-1 : Rat) < 0
        ∧ scFactorial [(-1 : Rat)]
            = .error (.valueError "Cannot calculate factorial of negative number"))
    ∧ ((0 : Rat) ≤ 1 / 2 ∧ ((1 : Rat) / 2).den ≠ 1
        ∧ scFactorial [(1 : Rat) / 2] = .error (.valueError "Factorial requires an integer")) :=
  ⟨factorial_spec.1 3,
   ⟨by decide, factorial_spec.2.1 (-1) (by decide)⟩,
   ⟨by decide, by decide, factorial_spec.2.2 (1 / 2) (by decide) (by decide)⟩⟩

/-- Claim C5: the square and cube special cases rewrite a single captured
operand to `[x, 2]` / `[x, 3]`; every other operation's operands pass
through unchanged; `square`/`cube` requests are dispatched through the
generic power rule; and "5 squared" parses to `[5, 2]` and evaluates
to 25. -/
theorem square_cube_rewrite :
    (∀ x : Rat, handleSpecialCases "square" [x] = [x, 2])
    ∧ (∀ x : Rat, handleSpecialCases "cube" [x] = [x, 3])
    ∧ (∀ (op : String) (ops : List Rat), op ≠ "square" → op ≠ "cube" →
        handleSpecialCases op ops = ops)
    ∧ (∀ (F : FloatOps) (ops : List Rat), calculate F "square" ops = scPower F ops)
    ∧ (∀ (F : FloatOps) (ops : List Rat), calculate F "cube" ops = scPower F ops)
    ∧ nlParse "5 squared".data = some ⟨"square", [5, 2], "5 squared".data⟩
    ∧ (∀ F : FloatOps, calculate F "square" [5, 2] = .ok 25) := by
  refine ⟨fun x => rfl, fun x => rfl, fun op ops h1 h2 => ?_,
    fun F ops => rfl, fun F ops => rfl, by decide, fun F => rfl⟩
  unfold handleSpecialCases
  split <;> simp_all

theorem square_cube_rewrite_witness :
    ("add" ≠ "square" ∧ "add" ≠ "cube"
      ∧ handleSpecialCases "add" [(7 : Rat), 8] = [(7 : Rat), 8]) :=
  ⟨by decide, by decide,
   square_cube_rewrite.2.2.1 "add" [7, 8] (by decide) (by decide)⟩

/-- Claim C8 (code bug): `get_history` with `limit = 0` returns the full
history rather than at most 0 entries: the Python slice `history[-0:]`
is `history[0:]`.  Evaluated at a store holding one entry. -/
theorem get_history_zero_limit_bug :
    (MemoryManager.mk [⟨"a".data, 1, "add"⟩] 100).get_history (some 0)
      = [⟨"a".data, 1, "add"⟩]
    ∧ ¬ ((MemoryManager.mk [⟨"a".data, 1, "add"⟩] 100).get_history (some 0)).length ≤ 0 :=
  ⟨rfl, by decide⟩

/-- Claim C9, counterexample: the numeric captures support no leading
minus sign.  On "-5 plus 3" the match starts after the minus and the
first operand comes out as 5, not −5. -/
theorem negative_operand_cex :
    nlParse "-5 plus 3".data = some ⟨"add", [5, 3], "-5 plus 3".data⟩
    ∧ nlParse "-5 plus 3".data ≠ some ⟨"add", [-5, 3], "-5 plus 3".data⟩ :=
  ⟨by decide, by decide⟩

/-- Claim C6: `process_query` always returns one of the defined response
strings — every failure (invalid input, no pattern matched, division by
zero, domain and arity errors) is converted into a user-facing message —
and the unmatched input "hello world" yields exactly the defined
"could not understand" parsing-error response, leaving the store
untouched. -/
theorem process_query_total_responses :
    (∀ (F : FloatOps) (mem : MemoryManager) (input : List Char),
      (process_query F mem input).1 = formatError "Invalid input"
      ∨ (process_query F mem input).1 = formatHelp
      ∨ (∃ h, (process_query F mem input).1 = formatHistory h)
      ∨ (process_query F mem input).1 = "History cleared!".data
      ∨ (process_query F mem input).1 = formatParsingError
      ∨ (∃ msg, (process_query F mem input).1 = formatError msg)
      ∨ (∃ v, (process_query F mem input).1 = formatResult v input))
    ∧ (∀ (F : FloatOps) (mem : MemoryManager),
        process_query F mem "hello world".data = (formatParsingError, mem)) := by
  constructor
  · intro F mem input
    cases hp : inputProcess input with
    | none => left; simp [process_query, hp]
    | some processed =>
        by_cases h1 : processed.map Char.toLower = "help".data
        · right; left; simp [process_query, hp, h1]
        · by_cases h2 : processed.map Char.toLower = "history".data
          · right; right; left
            exact ⟨mem.get_history (some 10), by simp [process_query, hp, h1, h2]⟩
          · by_cases h3 : processed.map Char.toLower = "clear".data
            · right; right; right; left; simp [process_query, hp, h1, h2, h3]
            · cases hn : nlParse processed with
              | none =>
                  right; right; right; right; left
                  simp [process_query, hp, h1, h2, h3, hn]
              | some parsed =>
                  cases hc : calculate F parsed.operation parsed.operands with
                  | error e =>
                      cases e with
                      | valueError msg =>
                          right; right; right; right; right; left
                          exact ⟨msg, by simp [process_query, hp, h1, h2, h3, hn, hc]⟩
                      | zeroDivisionError msg =>
                          right; right; right; right; right; left
                          exact ⟨"Cannot divide by zero",
                            by simp [process_query, hp, h1, h2, h3, hn, hc]⟩
                  | ok v =>
                      right; right; right; right; right; right
                      exact ⟨v, by simp [process_query, hp, h1, h2, h3, hn, hc]⟩
  · intro F mem
    rfl

/-- Claim C7, counterexample: the `clear` command empties a non-empty
store although no evaluation succeeded — the store is neither unchanged
nor extended by one entry, refuting "modified only when evaluation
succeeds". -/
theorem clear_modifies_history_cex :
    ((process_query zeroFloatOps
        (MemoryManager.mk [HistoryEntry.mk "a".data 1 "add"] 100) "clear".data).2).history
      = []
    ∧ (MemoryManager.mk [HistoryEntry.mk "a".data 1 "add"] 100).history ≠ []
    ∧ ∀ e : HistoryEntry,
        ((process_query zeroFloatOps
            (MemoryManager.mk [HistoryEntry.mk "a".data 1 "add"] 100) "clear".data).2).history
          ≠ (MemoryManager.mk [HistoryEntry.mk "a".data 1 "add"] 100).history ++ [e] := by
  refine ⟨rfl, by decide, fun e h => ?_⟩
  rw [show ((process_query zeroFloatOps
      (MemoryManager.mk [HistoryEntry.mk "a".data 1 "add"] 100) "clear".data).2).history
      = ([] : List HistoryEntry) from rfl] at h
  simp at h

/-- Claim C7 as amended: per processed query the store is unchanged,
or the query was the `clear` command and the store was emptied, or
parsing and evaluation succeeded and exactly one entry was inserted via
`add`, whose query field is the raw pre-normalization user text and
whose operation type is the parsed operation. -/
theorem history_update_policy :
    ∀ (F : FloatOps) (mem : MemoryManager) (input : List Char),
      (process_query F mem input).2 = mem
      ∨ ((process_query F mem input).2 = mem.clear
          ∧ ∃ processed, inputProcess input = some processed
              ∧ processed.map Char.toLower = "clear".data)
      ∨ (∃ processed p v,
          inputProcess input = some processed
          ∧ nlParse processed = some p
          ∧ calculate F p.operation p.operands = .ok v
          ∧ (process_query F mem input).2 = mem.add input v p.operation) := by
  intro F mem input
  cases hp : inputProcess input with
  | none => left; simp [process_query, hp]
  | some processed =>
      by_cases h1 : processed.map Char.toLower = "help".data
      · left; simp [process_query, hp, h1]
      · by_cases h2 : processed.map Char.toLower = "history".data
        · left; simp [process_query, hp, h1, h2]
        · by_cases h3 : processed.map Char.toLower = "clear".data
          · right; left
            exact ⟨by simp [process_query, hp, h1, h2, h3], processed, rfl, h3⟩
          · cases hn : nlParse processed with
            | none => left; simp [process_query, hp, h1, h2, h3, hn]
            | some parsed =>
                cases hc : calculate F parsed.operation parsed.operands with
                | error e =>
                    cases e with
                    | valueError msg =>
                        left; simp [process_query, hp, h1, h2, h3, hn, hc]
                    | zeroDivisionError msg =>
                        left; simp [process_query, hp, h1, h2, h3, hn, hc]
                | ok v =>
                    right; right
                    exact ⟨processed, parsed, v, rfl, hn, hc,
                      by simp [process_query, hp, h1, h2, h3, hn, hc]⟩

/-! ### Helper lemmas about the parser's match results -/

theorem firstSome?_eq_some {α β : Type} (f : α → Option β) :
    ∀ (l : List α) (b : β), firstSome? f l = some b → ∃ a ∈ l, f a = some b := by
  intro l
  induction l with
  | nil => intro b h; simp [firstSome?] at h
  | cons a rest ih =>
      intro b h
      simp only [firstSome?] at h
      cases hfa : f a with
      | some b0 =>
          simp only [hfa] at h
          exact ⟨a, List.mem_cons_self a rest, by rw [hfa, h]⟩
      | none =>
          simp only [hfa] at h
          obtain ⟨a0, ha0, hfa0⟩ := ih b h
          exact ⟨a0, List.mem_cons_of_mem a ha0, hfa0⟩

theorem searchAux_eq_some (r : RE) :
    ∀ (s : List Char) (caps : List (List Char)), searchAux r s = some caps →
      ∃ (t : List Char) (x : List Char × List (List Char)),
        x ∈ mrun r t ∧ x.2 = caps := by
  intro s
  induction s with
  | nil =>
      intro caps h
      simp only [searchAux] at h
      cases hm : mrun r [] with
      | nil => simp [hm] at h
      | cons x rest =>
          simp only [hm] at h
          exact ⟨[], x, by rw [hm]; exact List.mem_cons_self x rest, by injection h⟩
  | cons c cs ih =>
      intro caps h
      simp only [searchAux] at h
      cases hm : mrun r (c :: cs) with
      | nil =>
          simp only [hm] at h
          exact ih caps h
      | cons x rest =>
          simp only [hm] at h
          exact ⟨c :: cs, x, by rw [hm]; exact List.mem_cons_self x rest, by injection h⟩

theorem tryOperation_eq_some {op : String} {ps : List RE} {tlow orig : List Char}
    {r : Parsed} (h : tryOperation op ps tlow orig = some r) :
    ∃ caps, firstSome? (fun p => search p tlow) ps = some caps
      ∧ r = ⟨op,
          handleSpecialCases op ((caps.filter (fun g => !g.isEmpty)).map floatOfChars),
          orig⟩ := by
  unfold tryOperation at h
  cases hf : firstSome? (fun p => search p tlow) ps with
  | none => rw [hf] at h; simp at h
  | some caps =>
      rw [hf] at h
      simp only [Option.map] at h
      exact ⟨caps, rfl, (Option.some.inj h).symm⟩

theorem mrun_suffix :
    ∀ (r : RE) (s : List Char) (x : List Char × List (List Char)),
      x ∈ mrun r s → x.1 <:+ s := by
  intro r
  induction r with
  | eps =>
      intro s x hx
      simp only [mrun, List.mem_singleton] at hx
      rw [hx]
  | pred p =>
      intro s x hx
      cases s with
      | nil => simp [mrun] at hx
      | cons c cs =>
          by_cases hpc : p c
          · simp only [mrun, if_pos hpc, List.mem_singleton] at hx
            rw [hx]
            exact List.suffix_cons c cs
          · simp [mrun, if_neg hpc] at hx
  | str l =>
      intro s x hx
      simp [mrun] at hx
      rw [hx.2]
      exact List.drop_suffix l.length s
  | seq a b iha ihb =>
      intro s x hx
      simp only [mrun, List.mem_flatMap, List.mem_map] at hx
      obtain ⟨y, hy, z, hz, hxz⟩ := hx
      have h1 : z.1 <:+ y.1 := ihb y.1 z hz
      have h2 : y.1 <:+ s := iha s y hy
      rw [← hxz]
      exact h1.trans h2
  | alt a b iha ihb =>
      intro s x hx
      rcases List.mem_append.mp hx with h | h
      · exact iha s x h
      · exact ihb s x h
  | star p =>
      intro s x hx
      simp only [mrun, List.mem_map, List.mem_range] at hx
      obtain ⟨i, _, hxi⟩ := hx
      rw [← hxi]
      exact List.drop_suffix _ s
  | plus p =>
      intro s x hx
      simp only [mrun, List.mem_map, List.mem_range] at hx
      obtain ⟨i, _, hxi⟩ := hx
      rw [← hxi]
      exact List.drop_suffix _ s
  | opt a ih =>
      intro s x hx
      rcases List.mem_append.mp hx with h | h
      · exact ih s x h
      · simp only [List.mem_singleton] at h
        rw [h]
  | group a ih =>
      intro s x hx
      simp only [mrun, List.mem_map] at hx
      obtain ⟨y, hy, hxy⟩ := hx
      rw [← hxy]
      exact ih s y hy

theorem mem_take_of_le_takeWhile (p : Char → Bool) :
    ∀ (s : List Char) (m : Nat), m ≤ (s.takeWhile p).length →
      ∀ c ∈ s.take m, p c = true := by
  intro s
  induction s with
  | nil => intro m hm c hc; simp at hc
  | cons a as ih =>
      intro m hm c hc
      cases m with
      | zero => simp at hc
      | succ m' =>
          by_cases hpa : p a
          · simp only [List.takeWhile, hpa, List.length_cons] at hm
            simp only [List.take, List.mem_cons] at hc
            rcases hc with rfl | hc
            · exact hpa
            · exact ih m' (by omega) c hc
          · simp [List.takeWhile, hpa] at hm

theorem mrun_plus_consumed (p : Char → Bool) (s : List Char)
    (x : List Char × List (List Char)) (hx : x ∈ mrun (.plus p) s) :
    ∃ m, 1 ≤ m ∧ m ≤ (s.takeWhile p).length ∧ x.1 = s.drop m ∧ x.2 = [] := by
  simp only [mrun, List.mem_map, List.mem_range] at hx
  obtain ⟨i, hi, hxi⟩ := hx
  refine ⟨(s.takeWhile p).length - i, by omega, by omega, ?_, ?_⟩
  · rw [← hxi]
  · rw [← hxi]

theorem capsAre_intg : CapsAre DigitCap 1 intg := by
  intro s x hx
  have hintg : mrun intg s
      = (mrun (.plus Char.isDigit) s).map
          (fun y => (y.1, [s.take (s.length - y.1.length)])) := rfl
  rw [hintg] at hx
  obtain ⟨y, hy, hxy⟩ := List.mem_map.mp hx
  obtain ⟨m, hm1, hm2, hy1, _⟩ := mrun_plus_consumed Char.isDigit s y hy
  have hlen : (s.takeWhile Char.isDigit).length ≤ s.length :=
    (List.takeWhile_prefix Char.isDigit).length_le
  have hms : m ≤ s.length := le_trans hm2 hlen
  have hcap : s.take (s.length - y.1.length) = s.take m := by
    rw [hy1, List.length_drop]
    congr 1
    omega
  have hne : s.take m ≠ [] := by
    intro hnil
    rcases List.take_eq_nil_iff.mp hnil with h0 | hs0
    · omega
    · rw [hs0] at hlen hm2
      simp at hm2
      omega
  constructor
  · rw [← hxy]
    rfl
  · intro c hc
    rw [← hxy] at hc
    simp only [List.mem_singleton] at hc
    rw [hc, hcap]
    exact ⟨hne, mem_take_of_le_takeWhile Char.isDigit s m hm2⟩

theorem capsAre_eps {P : List Char → Prop} : CapsAre P 0 .eps := by
  intro s x hx
  simp only [mrun, List.mem_singleton] at hx
  rw [hx]
  exact ⟨rfl, by simp⟩

theorem capsAre_pred {P : List Char → Prop} {p : Char → Bool} :
    CapsAre P 0 (.pred p) := by
  intro s x hx
  cases s with
  | nil => simp [mrun] at hx
  | cons c cs =>
      by_cases hpc : p c
      · simp only [mrun, if_pos hpc, List.mem_singleton] at hx
        rw [hx]
        exact ⟨rfl, by simp⟩
      · simp [mrun, if_neg hpc] at hx

theorem capsAre_str {P : List Char → Prop} {l : List Char} :
    CapsAre P 0 (.str l) := by
  intro s x hx
  simp [mrun] at hx
  rw [hx.2]
  exact ⟨rfl, by simp⟩

theorem capsAre_star {P : List Char → Prop} {p : Char → Bool} :
    CapsAre P 0 (.star p) := by
  intro s x hx
  simp only [mrun, List.mem_map, List.mem_range] at hx
  obtain ⟨i, _, hxi⟩ := hx
  rw [← hxi]
  exact ⟨rfl, by simp⟩

theorem capsAre_opt {P : List Char → Prop} {a : RE} (ha : CapsAre P 0 a) :
    CapsAre P 0 (.opt a) := by
  intro s x hx
  rcases List.mem_append.mp hx with h | h
  · exact ha s x h
  · simp only [List.mem_singleton] at h
    rw [h]
    exact ⟨rfl, by simp⟩

theorem capsAre_alt {P : List Char → Prop} {n : Nat} {a b : RE}
    (ha : CapsAre P n a) (hb : CapsAre P n b) : CapsAre P n (.alt a b) := by
  intro s x hx
  rcases List.mem_append.mp hx with h | h
  · exact ha s x h
  · exact hb s x h

theorem capsAre_seq {P : List Char → Prop} {m n : Nat} {a b : RE}
    (ha : CapsAre P m a) (hb : CapsAre P n b) : CapsAre P (m + n) (.seq a b) := by
  intro s x hx
  simp only [mrun, List.mem_flatMap, List.mem_map] at hx
  obtain ⟨y, hy, z, hz, hxz⟩ := hx
  obtain ⟨hya, hyb⟩ := ha s y hy
  obtain ⟨hza, hzb⟩ := hb y.1 z hz
  rw [← hxz]
  constructor
  · simp [List.length_append, hya, hza]
  · intro c hc
    rcases List.mem_append.mp hc with h | h
    · exact hyb c h
    · exact hzb c h

theorem capsAre_fact1 : CapsAre DigitCap 1 factPat1 :=
  capsAre_seq (m := 1) (n := 0) capsAre_intg
    (capsAre_seq capsAre_star (capsAre_seq capsAre_str capsAre_eps))

theorem capsAre_fact2 : CapsAre DigitCap 1 factPat2 :=
  capsAre_seq (m := 0) (n := 1) capsAre_str
    (capsAre_seq capsAre_star
      (capsAre_seq (capsAre_opt capsAre_str)
        (capsAre_seq capsAre_star (capsAre_seq capsAre_intg capsAre_eps))))

theorem takeWhile_all {p : Char → Bool} :
    ∀ {l : List Char}, (∀ a ∈ l, p a = true) → l.takeWhile p = l := by
  intro l
  induction l with
  | nil => intro _; rfl
  | cons a as ih =>
      intro h
      simp only [List.takeWhile, h a (List.mem_cons_self a as)]
      rw [ih (fun b hb => h b (List.mem_cons_of_mem a hb))]

theorem dropWhile_all {p : Char → Bool} :
    ∀ {l : List Char}, (∀ a ∈ l, p a = true) → l.dropWhile p = [] := by
  intro l
  induction l with
  | nil => intro _; rfl
  | cons a as ih =>
      intro h
      simp only [List.dropWhile, h a (List.mem_cons_self a as)]
      exact ih (fun b hb => h b (List.mem_cons_of_mem a hb))

theorem floatOfChars_digits (c : List Char)
    (hd : ∀ ch ∈ c, Char.isDigit ch = true) :
    floatOfChars c = (digitsToNat c : Rat) := by
  have hnd : ∀ ch ∈ c, (!(ch == '.')) = true := by
    intro ch hch
    have h1 := hd ch hch
    by_cases h : ch = '.'
    · rw [h] at h1
      simp [Char.isDigit] at h1
    · simp [h]
  unfold floatOfChars
  rw [takeWhile_all hnd, dropWhile_all hnd]
  simp [digitsToNat]

theorem floatOfChars_nonneg (c : List Char) : 0 ≤ floatOfChars c := by
  unfold floatOfChars
  refine add_nonneg (Nat.cast_nonneg _) (div_nonneg (Nat.cast_nonneg _) ?_)
  positivity

theorem handleSpecialCases_pass {op : String} (h1 : op ≠ "square")
    (h2 : op ≠ "cube") (ops : List Rat) : handleSpecialCases op ops = ops := by
  unfold handleSpecialCases
  split <;> simp_all

theorem handleSpecialCases_mem {op : String} {ops : List Rat} {x : Rat}
    (hx : x ∈ handleSpecialCases op ops) : x ∈ ops ∨ x = 2 ∨ x = 3 := by
  unfold handleSpecialCases at hx
  split at hx <;> simp_all <;> tauto

theorem mem_patternList_factorial {e : String × List RE}
    (he : e ∈ patternList) (hop : e.1 = "factorial") :
    e = ("factorial", [factPat1, factPat2]) := by
  simp only [patternList, List.mem_cons, List.not_mem_nil, or_false] at he
  rcases he with h|h|h|h|h|h|h|h|h|h|h|h|h|h|h
  all_goals subst h
  all_goals first
    | rfl
    | exact absurd hop (by decide)

theorem scFactorial_nat (n : Nat) :
    scFactorial [(n : Rat)] = .ok (Nat.factorial n : Rat) := by
  simp [scFactorial, not_lt.mpr (Nat.cast_nonneg (α := Rat) n), Rat.den_natCast,
    Rat.num_natCast]

/-- Claim C9 as amended: every captured numeric substring is an unsigned
decimal (digits with optional fraction, no sign), so every parsed operand
is non-negative; in particular "-5 plus 3" parses with first operand 5,
the leading minus not being captured. -/
theorem operands_unsigned :
    (∀ (input : List Char) (r : Parsed), nlParse input = some r →
        ∀ x ∈ r.operands, 0 ≤ x)
    ∧ nlParse "-5 plus 3".data = some ⟨"add", [5, 3], "-5 plus 3".data⟩ := by
  constructor
  · intro input r hr x hx
    simp only [nlParse] at hr
    obtain ⟨e, _, hte⟩ := firstSome?_eq_some _ _ _ hr
    obtain ⟨caps, _, hre⟩ := tryOperation_eq_some hte
    rw [hre] at hx
    simp only at hx
    rcases handleSpecialCases_mem hx with hmem | h2 | h3
    · rcases List.mem_map.mp hmem with ⟨c, _, hc⟩
      rw [← hc]
      exact floatOfChars_nonneg c
    · rw [h2]; norm_num
    · rw [h3]; norm_num
  · decide

theorem operands_unsigned_witness :
    nlParse "-5 plus 3".data = some ⟨"add", [5, 3], "-5 plus 3".data⟩
    ∧ (5 : Rat) ∈ (Parsed.mk "add" [5, 3] "-5 plus 3".data).operands
    ∧ (0 : Rat) ≤ 5 :=
  ⟨by decide, by decide,
   operands_unsigned.1 "-5 plus 3".data ⟨"add", [5, 3], "-5 plus 3".data⟩
     (by decide) 5 (by decide)⟩

/-- Claim C10: whenever the parser produces a factorial request, the
operand list is exactly one non-negative integral value (both factorial
patterns capture only unsigned digit strings), so the evaluator's domain
error branches for factorial are unreachable: evaluation returns the
exact factorial. -/
theorem factorial_operands_safe :
    ∀ (input : List Char) (r : Parsed), nlParse input = some r →
      r.operation = "factorial" →
      ∃ n : Nat, r.operands = [(n : Rat)]
        ∧ ∀ F : FloatOps,
            calculate F "factorial" r.operands = .ok (Nat.factorial n : Rat) := by
  intro input r hr hop
  simp only [nlParse] at hr
  obtain ⟨e, he, hte⟩ := firstSome?_eq_some _ _ _ hr
  obtain ⟨caps, hcaps, hre⟩ := tryOperation_eq_some hte
  have hop' : e.1 = "factorial" := by rw [hre] at hop; exact hop
  rw [hop'] at hre
  have he2 : e = ("factorial", [factPat1, factPat2]) := mem_patternList_factorial he hop'
  have he22 : e.2 = [factPat1, factPat2] := by rw [he2]
  rw [he22] at hcaps
  obtain ⟨pat, hpat, hsearch⟩ := firstSome?_eq_some _ _ _ hcaps
  obtain ⟨t, xx, hxx, hxcaps⟩ := searchAux_eq_some pat _ _ hsearch
  have hshape : xx.2.length = 1 ∧ ∀ c ∈ xx.2, DigitCap c := by
    simp only [List.mem_cons, List.mem_singleton] at hpat
    rcases hpat with h | h | h
    · rw [h] at hxx
      exact capsAre_fact1 t xx hxx
    · rw [h] at hxx
      exact capsAre_fact2 t xx hxx
    · simp at h
  have hcl : caps.length = 1 := hxcaps ▸ hshape.1
  obtain ⟨c, hc⟩ := List.length_eq_one.mp hcl
  have hdc : DigitCap c := by
    refine hshape.2 c ?_
    rw [hxcaps, hc]
    exact List.mem_singleton.mpr rfl
  have hfil : [c].filter (fun g => !g.isEmpty) = [c] := by
    cases c with
    | nil => exact absurd rfl hdc.1
    | cons ch cs => rfl
  have hoperands : r.operands = [(digitsToNat c : Rat)] := by
    simp only [hre, hc]
    rw [hfil]
    simp only [List.map_cons, List.map_nil]
    rw [handleSpecialCases_pass (by decide) (by decide)]
    rw [floatOfChars_digits c hdc.2]
  refine ⟨digitsToNat c, hoperands, fun F => ?_⟩
  rw [hoperands]
  exact scFactorial_nat (digitsToNat c)

theorem factorial_operands_safe_witness :
    nlParse "5 factorial".data = some ⟨"factorial", [5], "5 factorial".data⟩
    ∧ ∃ n : Nat,
        (Parsed.mk "factorial" [5] "5 factorial".data).operands = [(n : Rat)]
        ∧ ∀ F : FloatOps,
            calculate F "factorial"
                (Parsed.mk "factorial" [5] "5 factorial".data).operands
              = .ok (Nat.factorial n : Rat) :=
  ⟨by decide,
   factorial_operands_safe "5 factorial".data
     ⟨"factorial", [5], "5 factorial".data⟩ (by decide) rfl⟩

end CalcAgent
